import Mathlib

/-!
Verification of the Shepp shell preprocessor (src/shepp.py, src/shepp_lexer.py,
src/lexer.py) against its natural-language specification.

The embedding models text as `List Char`.  The ply-based lexer is embedded as
a recursive function over the remaining input together with an explicit state
stack, reproducing ply rule dispatch faithfully:

* per state, function rules are tried in source-line order, then string rules
  (longest regex first, ties in dictionary order), each alternative matching
  greedily; the first alternative that matches wins;
* `t_ANY_...` rules participate in every state, so in the `pp` state the rule
  `t_ANY_begin_escaped` (source line 55) is tried before `t_pp_fslash`
  (source line 105); both match a lone backslash, hence `t_pp_fslash` and the
  `_pp_escape` flag are unreachable, which the embedding reproduces;
* the error hook for the INITIAL state is `SheppLexer.t_error` (emit the
  offending character as a one-character token and skip it), while the `pp`
  and `escaped` states fall back to `Lexer.t_ANY_error`, which raises; the
  embedding returns the offending character as a fatal lexing error there.

File contents are modelled as an association list from full path names to
text, and the include search path as a list of directory names; `pathlib`
joining `d / f` is string concatenation with a slash, except that the
current-directory entry joins to the bare file name.
-/

namespace Shepp

/-- Single quote character, written via its code point. -/
def squote : Char := Char.ofNat 39

/-- Python regex `\s` on ASCII input (whitespace class used by `t_WS`). -/
def isSpace (c : Char) : Bool :=
  c = ' ' || c = '\t' || c = '\n' || c = '\r' || c = '\x0b' || c = '\x0c'

/-- Python regex `\w` on ASCII input (word class used by `t_pp_PP_WORD`). -/
def isWordChar (c : Char) : Bool :=
  c.isAlphanum || c = '_'

/-- Python regex `[\w-]` (word class used by `t_WORD`). -/
def isWordC (c : Char) : Bool :=
  isWordChar c || c = '-'

/-- Lexer modes: ply state `INITIAL`, exclusive states `pp` and `escaped`. -/
inductive Mode where
  | initial
  | pp
  | escaped
deriving DecidableEq, Repr

/-- Token kinds.  Ply token types are strings; the named kinds stand for the
named types `WS`, `WORD`, `CHAR`, `PP_WORD`, `DEFINE`, `INCLUDE`, and
`lit c` stands for a one-character type string, as produced by
`SheppLexer.t_error` and `SheppLexer.t_pp_fslash`.  A one-character string
never equals one of the named multi-character names, so the constructors are
disjoint exactly as the Python string comparisons are. -/
inductive Kind where
  | WS
  | WORD
  | CHAR
  | PP_WORD
  | DEFINE
  | INCLUDE
  | lit (c : Char)
deriving DecidableEq, Repr

/-- A lexed token: its ply type and its text.  Line and offset fields are
omitted; they feed only diagnostics, which no claim mentions. -/
structure Token where
  kind : Kind
  value : List Char
deriving DecidableEq, Repr

/-- Embeds `SheppLexer.PP_RESERVED` lookup inside `t_pp_PP_WORD`: the raw
matched text is compared against the two reserved keywords before any quote
stripping happens. -/
def ppReserved (raw : List Char) : Kind :=
  if raw = "include".data then .INCLUDE
  else if raw = "define".data then .DEFINE
  else .PP_WORD

/-- Embeds the quote-stripping step of `t_pp_PP_WORD`: if the first and the
last character agree and are a quote character, both are removed. -/
def stripQuotes (raw : List Char) : List Char :=
  match raw.head?, raw.getLast? with
  | some a, some b =>
    if a = b ∧ (a = squote ∨ a = '"') then raw.tail.dropLast else raw
  | _, _ => raw

/-- Builds the token emitted by `t_pp_PP_WORD` from the raw matched text:
the type is decided on the raw text, the value is the raw text with
surrounding quotes stripped. -/
def ppTok (raw : List Char) : Token :=
  { kind := ppReserved raw, value := stripQuotes raw }

/-- Embeds the greedy match of the quoted alternative `"[^\n]*"` of
`t_pp_PP_WORD`, applied to the input after the opening quote: the match
extends to the last quote character strictly before the first newline.
Returns the text between the quotes and the input after the closing quote,
or `none` when no closing quote exists on the line. -/
def quoteSplit : List Char → Option (List Char × List Char)
  | [] => none
  | c :: cs =>
    if c = '\n' then none
    else
      match quoteSplit cs with
      | some (b, r) => some (c :: b, r)
      | none => if c = '"' then some ([], cs) else none

theorem quoteSplit_length :
    ∀ cs b r, quoteSplit cs = some (b, r) → r.length < cs.length := by
  intro cs
  induction cs with
  | nil => intro b r h; simp [quoteSplit] at h
  | cons c cs ih =>
    intro b r h
    by_cases hc1 : c = '\n'
    · simp [quoteSplit, hc1] at h
    · cases hq : quoteSplit cs with
      | some p =>
        obtain ⟨b', r'⟩ := p
        have hlen := ih b' r' hq
        simp [quoteSplit, hc1, hq] at h
        obtain ⟨h1, h2⟩ := h
        subst h2
        simp only [List.length_cons]
        omega
      | none =>
        simp [quoteSplit, hc1, hq] at h
        obtain ⟨h1, h2, h3⟩ := h
        subst h3
        simp only [List.length_cons]
        omega
end Shepp

namespace SheppLexer

open Shepp


/-- Embeds the token loop of `SheppLexer` driven through `Lexer.lex`.
Arguments: remaining input, lexer state stack (`lexer.push_state` conses,
`lexer.pop_state` drops the head; the active state is the head), and the
`_pp_escape` flag.  Returns the tokens produced until end of input or until
a raising error hook fires, paired with `some c` when `Lexer.t_ANY_error`
raised on character `c`. -/
def lex : List Char → List Mode → Bool → List Token × Option Char
  | [], _, _ => ([], none)
  | c :: cs, stack, esc =>
    match stack.headD .initial with
    | .initial =>
      if isSpace c then
        -- t_WS, regex \s+, greedy
        let r := lex (cs.dropWhile isSpace) stack esc
        (⟨.WS, c :: cs.takeWhile isSpace⟩ :: r.1, r.2)
      else if c = '\\' then
        -- t_ANY_begin_escaped: push the escaped state, emit nothing
        lex cs (.escaped :: stack) esc
      else if c = '#' ∧ cs.head? = some '$' then
        -- t_begin_pp, regex [#]\$: push the pp state, emit nothing
        lex cs.tail (.pp :: stack) esc
      else if isWordC c then
        -- t_WORD, regex [\w-]+, greedy
        let r := lex (cs.dropWhile isWordC) stack esc
        (⟨.WORD, c :: cs.takeWhile isWordC⟩ :: r.1, r.2)
      else if c = '#' then
        -- t_ignore_COMMENT, regex [#].*\n: matched text is discarded
        if cs.dropWhile (fun x => x != '\n') = [] then
          -- no newline follows: the comment rule fails, t_error fires
          let r := lex cs stack esc
          (⟨.lit c, [c]⟩ :: r.1, r.2)
        else
          lex (cs.dropWhile (fun x => x != '\n')).tail stack esc
      else
        -- t_error: emit the character as a one-character token, skip 1
        let r := lex cs stack esc
        (⟨.lit c, [c]⟩ :: r.1, r.2)
    | .escaped =>
      if c = '\\' then
        -- t_ANY_begin_escaped also fires inside the escaped state
        lex cs (.escaped :: stack) esc
      else if c = '"' ∨ c = squote ∨ c = '\n' then
        -- t_escaped_CHAR: emit CHAR, pop back to the previous state
        let r := lex cs stack.tail esc
        (⟨.CHAR, [c]⟩ :: r.1, r.2)
      else
        -- Lexer.t_ANY_error raises LexingError
        ([], some c)
    | .pp =>
      if c = '\\' then
        -- t_ANY_begin_escaped precedes t_pp_fslash, so a backslash pushes
        -- the escaped state; t_pp_fslash is unreachable
        lex cs (.escaped :: stack) esc
      else if isSpace c then
        -- t_pp_WS, regex \s, one character; reads and clears _pp_escape
        if c = '\n' then
          if esc then
            let r := lex cs stack false
            (⟨.WS, ['\n']⟩ :: r.1, r.2)
          else
            let r := lex cs stack.tail false
            (⟨.WS, ['\n']⟩ :: r.1, r.2)
        else
          -- non-newline whitespace: the action returns None, no token
          lex cs stack false
      else if isWordChar c then
        -- t_pp_PP_WORD, bare-identifier alternative \w+, greedy
        let r := lex (cs.dropWhile isWordChar) stack false
        (ppTok (c :: cs.takeWhile isWordChar) :: r.1, r.2)
      else if c = '"' then
        -- t_pp_PP_WORD, quoted alternative "[^\n]*", greedy
        match hq : quoteSplit cs with
        | some (b, rest) =>
          let r := lex rest stack false
          (ppTok ('"' :: b ++ ['"']) :: r.1, r.2)
        | none =>
          -- no closing quote on the line: Lexer.t_ANY_error raises
          ([], some c)
      else
        -- Lexer.t_ANY_error raises LexingError
        ([], some c)
termination_by cs _ _ => cs.length
decreasing_by
  all_goals simp_wf
  all_goals
    try exact Nat.lt_succ_of_le (List.Sublist.length_le (List.dropWhile_sublist _))
  all_goals try omega
  all_goals
    first
    | (have h2 := List.Sublist.length_le
         (List.dropWhile_sublist (l := cs) (fun x => x != '\n'))
       have h3 := List.length_tail (cs.dropWhile (fun x => x != '\n'))
       omega)
    | exact Nat.lt_succ_of_le
        (Nat.le_of_lt (Shepp.quoteSplit_length cs _ _ (by assumption)))

end SheppLexer

namespace Shepp

/-- The macro table `Shepp._macros`: a string-keyed mapping.  Only lookup
and overwrite semantics are observable; they match a Python dict. -/
abbrev Table := List (List Char × List Char)

/-- Current value of a macro name, as in `tok.value in self._macros` plus
the subsequent indexing. -/
def lookupM (M : Table) (k : List Char) : Option (List Char) :=
  (M.find? (fun p => p.1 == k)).map (fun p => p.2)

/-- Embeds `Shepp.define`: register name to value, silently overwriting. -/
def define (name value : List Char) (M : Table) : Table :=
  (name, value) :: M.filter (fun p => !(p.1 == name))

/-- Embeds `Shepp.__init__` building `self.path`: the current directory
followed by the user-supplied directories. -/
def sheppPath (userDirs : List (List Char)) : List (List Char) :=
  ".".data :: userDirs

/-- Embeds `pathlib` joining `directory / name` for the directory entries
that occur here: joining to the current directory yields the bare name. -/
def joinPath (d f : List Char) : List Char :=
  if d = ".".data then f else d ++ '/' :: f

/-- The file system, modelled as full path names mapped to contents. -/
abbrev Files := List (List Char × List Char)

/-- Contents of the regular file at a path, if one exists. -/
def readFile (fs : Files) (p : List Char) : Option (List Char) :=
  (fs.find? (fun q => q.1 == p)).map (fun q => q.2)

/-- Embeds `Path.is_file` in the model. -/
def isFile (fs : Files) (p : List Char) : Bool :=
  (readFile fs p).isSome

/-- Embeds the search loop of `Shepp._handle_include`: try each directory
of the include search path in order and read the first regular file found
at `directory / name`; `none` when every directory fails. -/
def resolveInclude (sp : List (List Char)) (fs : Files) (name : List Char) :
    Option (List Char) :=
  match sp with
  | [] => none
  | d :: ds =>
    if isFile fs (joinPath d name) then readFile fs (joinPath d name)
    else resolveInclude ds fs name

/-- Fatal error outcomes of the interpreter pipeline.  `badDefine` and
`badInclude` are the malformed-directive exceptions raised in
`Shepp._handle_define` and `Shepp._handle_include`, `includeNotFound` the
include-resolution exception, `lexError` the `LexingError` raised by
`Lexer.t_ANY_error`, and `depthExceeded` the modelling bound on include
nesting (the code has no cycle detection and recurses without bound). -/
inductive Err where
  | badDefine
  | badInclude
  | includeNotFound
  | lexError
  | depthExceeded
deriving DecidableEq, Repr

/-- Embeds `Shepp._join_lines`: drop every CHAR token whose value is a
newline (the escaped-newline line continuation), pass all else through. -/
def joinLines (ts : List Token) : List Token :=
  ts.filter (fun t => !(t.kind = Kind.CHAR ∧ t.value = ['\n'] : Bool))

/-- Embeds `Shepp._handle_define`, which runs after a DEFINE token was
consumed: pull three tokens, check the shapes PP_WORD, PP_WORD, WS,
register the macro, and return the remaining stream; any deviation,
including a premature end of the stream, raises. -/
def handleDefine (ts : List Token) (M : Table) :
    Except Err (Table × List Token) :=
  match ts with
  | [] => .error .badDefine
  | t1 :: ts1 =>
    if t1.kind = .PP_WORD then
      match ts1 with
      | [] => .error .badDefine
      | t2 :: ts2 =>
        if t2.kind = .PP_WORD then
          match ts2 with
          | [] => .error .badDefine
          | t3 :: ts3 =>
            if t3.kind = .WS then .ok (define t1.value t2.value M, ts3)
            else .error .badDefine
        else .error .badDefine
    else .error .badDefine

theorem handleDefine_length (ts : List Token) (M : Table) (M2 : Table)
    (ts2 : List Token) (h : handleDefine ts M = .ok (M2, ts2)) :
    ts2.length ≤ ts.length := by
  unfold handleDefine at h
  split at h
  · simp at h
  · split at h
    · split at h
      · simp at h
      · split at h
        · split at h
          · simp at h
          · split at h
            · simp only [Except.ok.injEq, Prod.mk.injEq] at h
              obtain ⟨h1, h2⟩ := h
              subst h2
              simp
              omega
            · simp at h
        · simp at h
    · simp at h

/-- Embeds the in-place macro substitution of `Shepp._lex_preprocess`:
a WORD token whose text is a key of the macro table has its value replaced
by the current table entry; any other token is left alone. -/
def substWord (M : Table) (t : Token) : Token :=
  if t.kind = .WORD then
    match lookupM M t.value with
    | some v => { t with value := v }
    | none => t
  else t

/-- Embeds the token loop of `Shepp._lex_preprocess` (the part after the
lexer and `_join_lines` have been applied): a DEFINE token dispatches to
`_handle_define`, which consumes the three payload tokens (on success the
loop resumes after them, hence at `rest.drop 3`); an INCLUDE token consumes
the PP_WORD target, resolves it, reads the file and recursively runs the
whole `_lex_preprocess` pipeline over its contents, splicing the resulting
tokens in place; every other token is emitted after macro substitution.
The result is the emitted tokens together with either the final macro
table or the fatal error that stopped the run; nothing after a fatal error
is emitted.  `fuel` bounds include nesting only, modelling the unbounded
recursion of the Python code. -/
def interp (sp : List (List Char)) (fs : Files) :
    Nat → List Token → Table → List Token × Except Err Table
  | _, [], M => ([], .ok M)
  | fuel, ⟨.DEFINE, _⟩ :: rest, M =>
    match handleDefine rest M with
    | .error e => ([], .error e)
    | .ok (M2, _) => interp sp fs fuel (rest.drop 3) M2
  | f + 1, ⟨.INCLUDE, _⟩ :: ⟨.PP_WORD, name⟩ :: rest2, M =>
    match resolveInclude sp fs name with
    | none => ([], .error .includeNotFound)
    | some content =>
      let lx := SheppLexer.lex content [.initial] false
      let ri := interp sp fs f (joinLines lx.1) M
      match ri.2 with
      | .error e => (ri.1, .error e)
      | .ok M2 =>
        match lx.2 with
        | some _ => (ri.1, .error .lexError)
        | none =>
          let ro := interp sp fs (f + 1) rest2 M2
          (ri.1 ++ ro.1, ro.2)
  | 0, ⟨.INCLUDE, _⟩ :: ⟨.PP_WORD, name⟩ :: _, M =>
    match resolveInclude sp fs name with
    | none => ([], .error .includeNotFound)
    | some _ => ([], .error .depthExceeded)
  | _, ⟨.INCLUDE, _⟩ :: _, M => ([], .error .badInclude)
  | fuel, t :: rest, M =>
    let r := interp sp fs fuel rest M
    (substWord M t :: r.1, r.2)
termination_by fuel ts _ => (fuel, ts.length)
decreasing_by
  · exact Prod.Lex.right fuel (by simp only [List.length_drop, List.length_cons]; omega)
  · exact Prod.Lex.left _ _ (Nat.lt_succ_self f)
  · exact Prod.Lex.right (f + 1) (by simp [List.length_cons]; omega)
  · exact Prod.Lex.right fuel (Nat.lt_succ_self _)

/-- Embeds `Shepp._lex_preprocess` as a whole: lex the script, join
continued lines, and run the interpreter loop.  A `LexingError` raised by
the lexer surfaces after the tokens lexed before it have been processed,
matching the lazy pipeline. -/
def lexPreprocess (sp : List (List Char)) (fs : Files) (fuel : Nat)
    (script : List Char) (M : Table) : List Token × Except Err Table :=
  let lx := SheppLexer.lex script [.initial] false
  let r := interp sp fs fuel (joinLines lx.1) M
  match r.2 with
  | .error e => (r.1, .error e)
  | .ok M2 =>
    match lx.2 with
    | some _ => (r.1, .error .lexError)
    | none => (r.1, .ok M2)

/-- Helper of `Shepp._remove_empty_lines` carrying the last-was-newline
flag: a WS token containing a newline is normalized to a lone newline and
dropped when the previously emitted token was already such a newline. -/
def removeEmptyLinesGo : Bool → List Token → List Token
  | _, [] => []
  | last, t :: ts =>
    if t.kind = Kind.WS ∧ '\n' ∈ t.value then
      if last then removeEmptyLinesGo true ts
      else { t with value := ['\n'] } :: removeEmptyLinesGo true ts
    else t :: removeEmptyLinesGo false ts

/-- Embeds `Shepp._remove_empty_lines`. -/
def removeEmptyLines (ts : List Token) : List Token :=
  removeEmptyLinesGo false ts

/-- Embeds `Shepp.preprocess`: the full pipeline, yielding the text chunks
of the processed tokens (token values after blank-line collapsing), paired
with the final macro table or the fatal error. -/
def preprocess (sp : List (List Char)) (fs : Files) (fuel : Nat)
    (script : List Char) (M : Table) :
    List (List Char) × Except Err Table :=
  let r := lexPreprocess sp fs fuel script M
  ((removeEmptyLines r.1).map (fun t => t.value), r.2)

/-- Embeds the `__DATE__` and `__TIME__` pre-population in
`Shepp.__init__`, parametrized by the formatted current date and time. -/
def initialTable (dateStr timeStr : List Char) : Table :=
  define "__TIME__".data timeStr (define "__DATE__".data dateStr [])

end Shepp

open Shepp

/-- Concatenated text of a token stream. -/
def tokText (ts : List Token) : List Char :=
  (ts.map Token.value).flatten

/-- Shape of the tokens the lexer produces in the INITIAL state on input
free of backslashes and hashes: whitespace runs, word runs, and
single-character fallback tokens. -/
def goodTok : Token → Prop
  | ⟨.WS, v⟩ => v ≠ [] ∧ ∀ c ∈ v, isSpace c = true
  | ⟨.WORD, v⟩ => v ≠ [] ∧ ∀ c ∈ v, isWordC c = true
  | ⟨.lit c, v⟩ => v = [c] ∧ isSpace c = false ∧ isWordC c = false
  | _ => False

/-- The head of the stream, when present, is not a whitespace token. -/
def headNotWS : List Token → Prop
  | [] => True
  | t :: _ => t.kind ≠ .WS

/-- Well-formed INITIAL-state output: every token has the expected shape
and whitespace tokens are never adjacent (runs are maximal). -/
def initToks : List Token → Prop
  | [] => True
  | t :: ts => goodTok t ∧ (t.kind = .WS → headNotWS ts) ∧ initToks ts

theorem interp_nil (sp : List (List Char)) (fs : Files) (fuel : Nat) (M : Table) :
    interp sp fs fuel [] M = ([], .ok M) := by
  cases fuel <;> rw [interp.eq_def]

theorem interp_step (sp : List (List Char)) (fs : Files) (fuel : Nat)
    (t : Token) (rest : List Token) (M : Table)
    (h1 : t.kind ≠ .DEFINE) (h2 : t.kind ≠ .INCLUDE) :
    interp sp fs fuel (t :: rest) M
      = (substWord M t :: (interp sp fs fuel rest M).1,
         (interp sp fs fuel rest M).2) := by
  obtain ⟨k, v⟩ := t
  cases k <;> simp_all <;> cases fuel <;> rw [interp.eq_def]

theorem interp_step_define (sp : List (List Char)) (fs : Files) (fuel : Nat)
    (dv : List Char) (rest : List Token) (M : Table) :
    interp sp fs fuel (⟨.DEFINE, dv⟩ :: rest) M
      = match handleDefine rest M with
        | .error e => ([], .error e)
        | .ok (M2, _) => interp sp fs fuel (rest.drop 3) M2 := by
  cases fuel <;> rw [interp.eq_def]

theorem interp_step_include (sp : List (List Char)) (fs : Files) (f : Nat)
    (iv name : List Char) (rest2 : List Token) (M : Table) (content : List Char)
    (h : resolveInclude sp fs name = some content) :
    interp sp fs (f + 1) (⟨.INCLUDE, iv⟩ :: ⟨.PP_WORD, name⟩ :: rest2) M
      = (let lx := SheppLexer.lex content [.initial] false
         let ri := interp sp fs f (joinLines lx.1) M
         match ri.2 with
         | .error e => (ri.1, .error e)
         | .ok M2 =>
           match lx.2 with
           | some _ => (ri.1, .error .lexError)
           | none =>
             let ro := interp sp fs (f + 1) rest2 M2
             (ri.1 ++ ro.1, ro.2)) := by
  rw [interp.eq_def]
  simp [h]

theorem interp_step_include_notfound (sp : List (List Char)) (fs : Files)
    (fuel : Nat) (iv name : List Char) (rest2 : List Token) (M : Table)
    (h : resolveInclude sp fs name = none) :
    interp sp fs fuel (⟨.INCLUDE, iv⟩ :: ⟨.PP_WORD, name⟩ :: rest2) M
      = ([], .error .includeNotFound) := by
  cases fuel <;> (rw [interp.eq_def]; simp [h])

/-- Claim C2: a WS token carrying a run of three or more newlines (three
or more consecutive blank lines, merged into one token by the greedy
`t_WS` rule) is collapsed by `Shepp._remove_empty_lines` to exactly one
newline, and a WS token carrying a single newline passes through
unchanged. -/
theorem C2_blank_line_collapser :
    (∀ a s b, 3 ≤ s.count '\n' →
      removeEmptyLines [⟨.WORD, a⟩, ⟨.WS, s⟩, ⟨.WORD, b⟩]
        = [⟨.WORD, a⟩, ⟨.WS, ['\n']⟩, ⟨.WORD, b⟩])
    ∧ (∀ a b, removeEmptyLines [⟨.WORD, a⟩, ⟨.WS, ['\n']⟩, ⟨.WORD, b⟩]
        = [⟨.WORD, a⟩, ⟨.WS, ['\n']⟩, ⟨.WORD, b⟩]) := by
  constructor
  · intro a s b h3
    have hmem : '\n' ∈ s := List.count_pos_iff.mp (by omega)
    simp [removeEmptyLines, removeEmptyLinesGo, hmem]
  · intro a b
    simp [removeEmptyLines, removeEmptyLinesGo]

/-- Claim C2, witness. -/
theorem C2_blank_line_collapser_witness :
    removeEmptyLines [⟨.WORD, "x".data⟩, ⟨.WS, ['\n', '\n', '\n']⟩, ⟨.WORD, "y".data⟩]
      = [⟨.WORD, "x".data⟩, ⟨.WS, ['\n']⟩, ⟨.WORD, "y".data⟩] :=
  C2_blank_line_collapser.1 "x".data ['\n', '\n', '\n'] "y".data (by decide)

/-- Claim C3: a WORD token is emitted with the macro table value current
at the moment it is processed (its own text when the text is no key), the
substituted value is spliced into the output as-is while interpretation
continues only on the remaining stream (no re-scan of the value), and a
redefinition between two occurrences of a word changes only the later
occurrence. -/
theorem C3_macro_substitution :
    (∀ sp fs fuel w rest M,
      interp sp fs fuel (⟨.WORD, w⟩ :: rest) M
        = (⟨.WORD, (lookupM M w).getD w⟩ :: (interp sp fs fuel rest M).1,
           (interp sp fs fuel rest M).2))
    ∧ (∀ sp fs fuel x v1 v2 dv s rest M, lookupM M x = some v1 →
        interp sp fs fuel
          (⟨.WORD, x⟩ :: ⟨.DEFINE, dv⟩ :: ⟨.PP_WORD, x⟩ :: ⟨.PP_WORD, v2⟩ ::
            ⟨.WS, s⟩ :: rest) M
          = (⟨.WORD, v1⟩ :: (interp sp fs fuel rest (define x v2 M)).1,
             (interp sp fs fuel rest (define x v2 M)).2)
        ∧ lookupM (define x v2 M) x = some v2) := by
  constructor
  · intro sp fs fuel w rest M
    rw [interp_step sp fs fuel ⟨.WORD, w⟩ rest M (by simp) (by simp)]
    cases h : lookupM M w <;> simp [substWord, h]
  · intro sp fs fuel x v1 v2 dv s rest M hx
    constructor
    · rw [interp_step sp fs fuel ⟨.WORD, x⟩ _ M (by simp) (by simp),
        interp_step_define]
      simp [substWord, hx, handleDefine]
    · simp [lookupM, define]

/-- Claim C3, witness. -/
theorem C3_macro_substitution_witness :
    interp [] [] 1
        (⟨.WORD, "A".data⟩ :: ⟨.DEFINE, "define".data⟩ :: ⟨.PP_WORD, "A".data⟩ ::
          ⟨.PP_WORD, "C".data⟩ :: ⟨.WS, ['\n']⟩ :: []) [("A".data, "B".data)]
        = (⟨.WORD, "B".data⟩ ::
             (interp [] [] 1 [] (define "A".data "C".data [("A".data, "B".data)])).1,
           (interp [] [] 1 [] (define "A".data "C".data [("A".data, "B".data)])).2)
      ∧ lookupM (define "A".data "C".data [("A".data, "B".data)]) "A".data
        = some "C".data :=
  (C3_macro_substitution.2 [] [] 1 "A".data "B".data "C".data "define".data
    ['\n'] [] [("A".data, "B".data)] (by decide))

/-- Claim C5: `Shepp._handle_define` consumes exactly the payload
PP_WORD(name), PP_WORD(value), WS and registers the macro; a wrong token
kind at any of the three positions, or a premature end of the stream,
yields the fatal malformed-directive error, and the interpreter then
aborts with no further output. -/
theorem C5_define_shape :
    (∀ n v s rest M,
      handleDefine (⟨.PP_WORD, n⟩ :: ⟨.PP_WORD, v⟩ :: ⟨.WS, s⟩ :: rest) M
        = .ok (define n v M, rest))
    ∧ (∀ t1 rest M, t1.kind ≠ .PP_WORD →
        handleDefine (t1 :: rest) M = .error .badDefine)
    ∧ (∀ t1 t2 rest M, t1.kind = .PP_WORD → t2.kind ≠ .PP_WORD →
        handleDefine (t1 :: t2 :: rest) M = .error .badDefine)
    ∧ (∀ t1 t2 t3 rest M, t1.kind = .PP_WORD → t2.kind = .PP_WORD →
        t3.kind ≠ .WS → handleDefine (t1 :: t2 :: t3 :: rest) M = .error .badDefine)
    ∧ (∀ M, handleDefine [] M = .error .badDefine)
    ∧ (∀ t1 M, t1.kind = .PP_WORD → handleDefine [t1] M = .error .badDefine)
    ∧ (∀ t1 t2 M, t1.kind = .PP_WORD → t2.kind = .PP_WORD →
        handleDefine [t1, t2] M = .error .badDefine)
    ∧ (∀ sp fs fuel dv ts M e, handleDefine ts M = .error e →
        interp sp fs fuel (⟨.DEFINE, dv⟩ :: ts) M = ([], .error e)) := by
  refine ⟨?_, ?_, ?_, ?_, ?_, ?_, ?_, ?_⟩
  · intro n v s rest M
    simp [handleDefine]
  · intro t1 rest M h1
    cases rest <;> simp [handleDefine, h1]
  · intro t1 t2 rest M h1 h2
    cases rest <;> simp [handleDefine, h1, h2]
  · intro t1 t2 t3 rest M h1 h2 h3
    simp [handleDefine, h1, h2, h3]
  · intro M
    simp [handleDefine]
  · intro t1 M h1
    simp [handleDefine, h1]
  · intro t1 t2 M h1 h2
    simp [handleDefine, h1, h2]
  · intro sp fs fuel dv ts M e he
    rw [interp_step_define, he]

/-- Claim C5, witness. -/
theorem C5_define_shape_witness :
    (handleDefine [⟨.PP_WORD, "A".data⟩, ⟨.PP_WORD, "B".data⟩, ⟨.WS, ['\n']⟩]
        [] = .ok (define "A".data "B".data [], []))
    ∧ handleDefine [⟨.WS, ['\n']⟩] [] = .error .badDefine
    ∧ handleDefine [⟨.PP_WORD, "A".data⟩, ⟨.WS, [' ']⟩] [] = .error .badDefine
    ∧ handleDefine [⟨.PP_WORD, "A".data⟩, ⟨.PP_WORD, "B".data⟩,
        ⟨.WORD, "c".data⟩] [] = .error .badDefine
    ∧ handleDefine [] [] = .error .badDefine
    ∧ handleDefine [⟨.PP_WORD, "A".data⟩] [] = .error .badDefine
    ∧ handleDefine [⟨.PP_WORD, "A".data⟩, ⟨.PP_WORD, "B".data⟩] []
        = .error .badDefine
    ∧ interp [] [] 1 [⟨.DEFINE, "define".data⟩] [] = ([], .error .badDefine) :=
  ⟨C5_define_shape.1 "A".data "B".data ['\n'] [] [],
   C5_define_shape.2.1 ⟨.WS, ['\n']⟩ [] [] (by decide),
   C5_define_shape.2.2.1 ⟨.PP_WORD, "A".data⟩ ⟨.WS, [' ']⟩ [] [] (by decide)
     (by decide),
   C5_define_shape.2.2.2.1 ⟨.PP_WORD, "A".data⟩ ⟨.PP_WORD, "B".data⟩
     ⟨.WORD, "c".data⟩ [] [] (by decide) (by decide) (by decide),
   C5_define_shape.2.2.2.2.1 [],
   C5_define_shape.2.2.2.2.2.1 ⟨.PP_WORD, "A".data⟩ [] (by decide),
   C5_define_shape.2.2.2.2.2.2.1 ⟨.PP_WORD, "A".data⟩ ⟨.PP_WORD, "B".data⟩ []
     (by decide) (by decide),
   C5_define_shape.2.2.2.2.2.2.2 [] [] 1 "define".data [] [] .badDefine
     (C5_define_shape.2.2.2.2.1 [])⟩

/-- Claim C6: the include search path built by `Shepp.__init__` always
begins with the current directory followed by the user directories; the
resolution loop of `Shepp._handle_include` returns the file at the first
directory of the path containing a regular file at directory slash target
(it equals a first-match search), returns nothing when every directory
fails, and in that case the interpreter aborts with the fatal
include-resolution error, emitting no further token. -/
theorem C6_include_resolution :
    (∀ us, sheppPath us = ".".data :: us)
    ∧ (∀ sp fs name, resolveInclude sp fs name
        = (sp.find? (fun d => isFile fs (joinPath d name))).bind
            (fun d => readFile fs (joinPath d name)))
    ∧ (∀ sp fs name, (∀ d ∈ sp, isFile fs (joinPath d name) = false) →
        resolveInclude sp fs name = none)
    ∧ (∀ sp fs fuel iv name rest M, resolveInclude sp fs name = none →
        interp sp fs fuel (⟨.INCLUDE, iv⟩ :: ⟨.PP_WORD, name⟩ :: rest) M
          = ([], .error .includeNotFound)) := by
  refine ⟨fun us => rfl, ?_, ?_, ?_⟩
  · intro sp fs name
    induction sp with
    | nil => simp [resolveInclude]
    | cons d ds ih =>
      by_cases h : isFile fs (joinPath d name)
      · simp [resolveInclude, h, List.find?_cons_of_pos]
      · simp only [resolveInclude, h, if_false, ih]
        rw [List.find?_cons_of_neg _ (by simp [h])]
        simp
  · intro sp fs name hall
    induction sp with
    | nil => simp [resolveInclude]
    | cons d ds ih =>
      have hd := hall d (by simp)
      simp only [resolveInclude, hd, if_false]
      exact ih (fun d2 hmem => hall d2 (by simp [hmem]))
  · intro sp fs fuel iv name rest M h
    exact interp_step_include_notfound sp fs fuel iv name rest M h

/-- Claim C6, witness. -/
theorem C6_include_resolution_witness :
    resolveInclude (sheppPath []) [] "f".data = none
    ∧ interp (sheppPath []) [] 1
        [⟨.INCLUDE, "include".data⟩, ⟨.PP_WORD, "f".data⟩] []
        = ([], .error .includeNotFound) :=
  ⟨C6_include_resolution.2.2.1 (sheppPath []) [] "f".data (by decide),
   C6_include_resolution.2.2.2 (sheppPath []) [] 1 "include".data "f".data [] []
     (C6_include_resolution.2.2.1 (sheppPath []) [] "f".data (by decide))⟩

/-- Claim C4: an include directive whose target resolves to content that
the pipeline (`Shepp._lex_preprocess`: tokenizing, line joining, directive
handling, macro substitution) processes to tokens `out` and final table
`M2` produces exactly `out` spliced in place of the directive, and the
stream after the directive is interpreted under the carried-through table
`M2`, so macros defined inside the include stay visible. -/
theorem C4_include_splice :
    ∀ sp fs f iv name rest M content out M2,
      resolveInclude sp fs name = some content →
      lexPreprocess sp fs f content M = (out, .ok M2) →
      interp sp fs (f + 1) (⟨.INCLUDE, iv⟩ :: ⟨.PP_WORD, name⟩ :: rest) M
        = (out ++ (interp sp fs (f + 1) rest M2).1,
           (interp sp fs (f + 1) rest M2).2) := by
  intro sp fs f iv name rest M content out M2 hres hlp
  rw [interp_step_include sp fs f iv name rest M content hres]
  simp only [lexPreprocess] at hlp
  cases hri : (interp sp fs f
      (joinLines (SheppLexer.lex content [.initial] false).1) M).2 with
  | error e =>
    rw [hri] at hlp
    simp at hlp
  | ok M2x =>
    rw [hri] at hlp
    cases hlx : (SheppLexer.lex content [.initial] false).2 with
    | some c =>
      rw [hlx] at hlp
      simp at hlp
    | none =>
      rw [hlx] at hlp
      simp only [Prod.mk.injEq, Except.ok.injEq] at hlp
      obtain ⟨h1, h2⟩ := hlp
      subst h1
      subst h2
      simp only [hri, hlx]

/-- Claim C4, witness. -/
theorem C4_include_splice_witness :
    interp (sheppPath []) [("f".data, "x".data)] 1
        [⟨.INCLUDE, "include".data⟩, ⟨.PP_WORD, "f".data⟩] []
      = ([⟨.WORD, "x".data⟩]
           ++ (interp (sheppPath []) [("f".data, "x".data)] 1 [] []).1,
         (interp (sheppPath []) [("f".data, "x".data)] 1 [] []).2) := by
  have hres : resolveInclude (sheppPath []) [("f".data, "x".data)] "f".data
      = some "x".data := by decide
  have hlex : SheppLexer.lex "x".data [.initial] false
      = ([⟨.WORD, "x".data⟩], none) := by
    simp [SheppLexer.lex.eq_def, isSpace, isWordC, isWordChar]
  have hjl : joinLines [⟨.WORD, "x".data⟩] = [⟨.WORD, "x".data⟩] := by decide
  have hstep : interp (sheppPath []) [("f".data, "x".data)] 0
      [⟨.WORD, "x".data⟩] [] = ([⟨.WORD, "x".data⟩], .ok []) := by
    rw [interp_step _ _ 0 ⟨.WORD, "x".data⟩ [] [] (by decide) (by decide)]
    simp [interp_nil, substWord, lookupM]
  have hlp : lexPreprocess (sheppPath []) [("f".data, "x".data)] 0 "x".data []
      = ([⟨.WORD, "x".data⟩], .ok []) := by
    simp only [lexPreprocess, hlex, hjl, hstep]
  exact C4_include_splice (sheppPath []) [("f".data, "x".data)] 0
    "include".data "f".data [] [] "x".data [⟨.WORD, "x".data⟩] [] hres hlp

/-- Claim C8: inside a directive, a backslash immediately before the
newline pushes the escaped state, the newline is lexed as a CHAR token and
the lexer pops straight back into the directive state, so the newline does
not terminate directive mode; `_join_lines` then removes the CHAR token,
so the joined token stream that the directive interpreter sees is the same
as if the backslash-newline pair were absent, hence a split define or
include behaves exactly like the unsplit directive. -/
theorem C8_directive_continuation :
    ∀ cs st esc,
      SheppLexer.lex ('\\' :: '\n' :: cs) (.pp :: st) esc
        = (⟨.CHAR, ['\n']⟩ :: (SheppLexer.lex cs (.pp :: st) esc).1,
           (SheppLexer.lex cs (.pp :: st) esc).2)
      ∧ joinLines ((SheppLexer.lex ('\\' :: '\n' :: cs) (.pp :: st) esc).1)
        = joinLines ((SheppLexer.lex cs (.pp :: st) esc).1)
      ∧ (SheppLexer.lex ('\\' :: '\n' :: cs) (.pp :: st) esc).2
        = (SheppLexer.lex cs (.pp :: st) esc).2 := by
  intro cs st esc
  have h1 : SheppLexer.lex ('\\' :: '\n' :: cs) (.pp :: st) esc
      = (⟨.CHAR, ['\n']⟩ :: (SheppLexer.lex cs (.pp :: st) esc).1,
         (SheppLexer.lex cs (.pp :: st) esc).2) := by
    rw [SheppLexer.lex.eq_def]
    simp only [List.headD_cons, if_pos rfl, reduceCtorEq]
    rw [SheppLexer.lex.eq_def]
    simp [squote, isSpace]
  refine ⟨h1, ?_, ?_⟩
  · rw [h1]
    simp [joinLines]
  · rw [h1]

/-- Helper for claim C9: skipping the comment body reaches the first
newline. -/
theorem dropWhile_append_newline (body rest : List Char)
    (h : ∀ c ∈ body, c ≠ '\n') :
    (body ++ '\n' :: rest).dropWhile (fun x => x != '\n') = '\n' :: rest := by
  induction body with
  | nil => simp [List.dropWhile]
  | cons b bs ih =>
    have hb : b ≠ '\n' := h b (by simp)
    simp only [List.cons_append, List.dropWhile_cons]
    simp only [bne_iff_ne, ne_eq, hb, not_false_eq_true, if_true]
    exact ih (fun c hc => h c (by simp [hc]))

/-- Claim C9: an ordinary hash comment (hash not followed by a dollar
sign) is stripped entirely, including its trailing newline: lexing
resumes after the newline and not a single token is produced for any
character of the comment line. -/
theorem C9_comment_stripped :
    ∀ body rest, (∀ c ∈ body, c ≠ '\n') → body.head? ≠ some '$' →
      SheppLexer.lex ('#' :: body ++ '\n' :: rest) [.initial] false
        = SheppLexer.lex rest [.initial] false := by
  intro body rest hb hd
  have hh : (body ++ '\n' :: rest).head? = some '$' ↔ False := by
    cases body with
    | nil => simp
    | cons b bs => simpa using hd
  have hdw := dropWhile_append_newline body rest hb
  rw [SheppLexer.lex.eq_def]
  simp [isSpace, isWordC, isWordChar, hh, hdw]
  intro hcontra
  exact absurd hcontra hd

/-- Claim C9, witness. -/
theorem C9_comment_stripped_witness :
    SheppLexer.lex ('#' :: " note".data ++ '\n' :: "x".data) [.initial] false
      = SheppLexer.lex "x".data [.initial] false :=
  C9_comment_stripped " note".data "x".data (by decide) (by decide)

/-- Helper for claim C10: the greedy quoted-string match on a payload with
no inner quote and no inner newline stops at the closing quote. -/
theorem quoteSplit_append (w rest : List Char) (hq : '"' ∉ w)
    (hn : '\n' ∉ w) :
    quoteSplit (w ++ '"' :: '\n' :: rest) = some (w, '\n' :: rest) := by
  induction w with
  | nil => simp [quoteSplit]
  | cons c cs ih =>
    have h1 : c ≠ '"' := fun h => hq (by simp [h])
    have h2 : c ≠ '\n' := fun h => hn (by simp [h])
    have ih2 := ih (fun h => hq (List.mem_cons_of_mem c h))
      (fun h => hn (List.mem_cons_of_mem c h))
    simp [quoteSplit, h1, h2, ih2]

/-- Helper for claim C10: the token built from a quoted raw match is a
plain PP_WORD (the reserved-keyword comparison sees the quotes) whose
value has the quotes stripped. -/
theorem ppTok_quoted (w : List Char) :
    ppTok ('"' :: w ++ ['"']) = ⟨.PP_WORD, w⟩ := by
  have hlast : ('"' :: (w ++ ['"'])).getLast? = some '"' := by
    rw [show ('"' :: (w ++ ['"'])) = ('"' :: w) ++ ['"'] by simp]
    exact List.getLast?_concat _
  have hinc : "include".data = ['i', 'n', 'c', 'l', 'u', 'd', 'e'] := rfl
  have hdef : "define".data = ['d', 'e', 'f', 'i', 'n', 'e'] := rfl
  simp [ppTok, ppReserved, stripQuotes, hinc, hdef, hlast, squote,
    List.dropLast_concat]

/-- Claim C10: a double-quoted directive payload is re-tagged on its raw
matched text before quote stripping, so even when the quoted content is
exactly `define` or `include` the emitted token is a PP_WORD carrying the
unquoted content, never a DEFINE or INCLUDE token; the directive then ends
at the following newline as usual. -/
theorem C10_quoted_keyword :
    ∀ w rest, '"' ∉ w → '\n' ∉ w →
      SheppLexer.lex ('#' :: '$' :: '"' :: (w ++ '"' :: '\n' :: rest))
          [.initial] false
        = (⟨.PP_WORD, w⟩ :: ⟨.WS, ['\n']⟩
             :: (SheppLexer.lex rest [.initial] false).1,
           (SheppLexer.lex rest [.initial] false).2) := by
  intro w rest hq hn
  have hsplit : quoteSplit (w ++ '"' :: '\n' :: rest) = some (w, '\n' :: rest) :=
    quoteSplit_append w rest hq hn
  have hstep2 : SheppLexer.lex ('"' :: (w ++ '"' :: '\n' :: rest))
      [Mode.pp, Mode.initial] false
      = (⟨.PP_WORD, w⟩
           :: (SheppLexer.lex ('\n' :: rest) [Mode.pp, Mode.initial] false).1,
         (SheppLexer.lex ('\n' :: rest) [Mode.pp, Mode.initial] false).2) := by
    rw [SheppLexer.lex.eq_def]
    simp [isSpace, isWordChar, squote]
    split
    · rename_i b r1 heq
      rw [hsplit] at heq
      simp only [Option.some.injEq, Prod.mk.injEq] at heq
      obtain ⟨hb, hr⟩ := heq
      subst hb
      subst hr
      simp only [List.cons_append] at hsplit ⊢
      exact congrArg (fun tk => (tk :: (SheppLexer.lex ('\n' :: rest)
        [Mode.pp, Mode.initial] false).1, (SheppLexer.lex ('\n' :: rest)
        [Mode.pp, Mode.initial] false).2)) (ppTok_quoted w)
    · rename_i heq
      rw [hsplit] at heq
      simp at heq
  have hstep3 : SheppLexer.lex ('\n' :: rest) [Mode.pp, Mode.initial] false
      = (⟨.WS, ['\n']⟩ :: (SheppLexer.lex rest [Mode.initial] false).1,
         (SheppLexer.lex rest [Mode.initial] false).2) := by
    rw [SheppLexer.lex.eq_def]
    simp [isSpace, squote]
  have hstep1 : SheppLexer.lex ('#' :: '$' :: '"' :: (w ++ '"' :: '\n' :: rest))
      [Mode.initial] false
      = SheppLexer.lex ('"' :: (w ++ '"' :: '\n' :: rest))
          [Mode.pp, Mode.initial] false := by
    rw [SheppLexer.lex.eq_def]
    simp [isSpace, isWordC, isWordChar]
  rw [hstep1, hstep2, hstep3]

/-- Claim C10, witness. -/
theorem C10_quoted_keyword_witness :
    SheppLexer.lex ('#' :: '$' :: '"' :: ("define".data ++ '"' :: '\n' :: []))
        [.initial] false
      = (⟨.PP_WORD, "define".data⟩ :: ⟨.WS, ['\n']⟩
           :: (SheppLexer.lex [] [.initial] false).1,
         (SheppLexer.lex [] [.initial] false).2) :=
  C10_quoted_keyword "define".data [] (by decide) (by decide)

/-- Claim C7, counterexample: in directive mode an unmatched character is
not emitted as a one-character token with the lexer advancing past it; the
error hook for the `pp` state is the raising `Lexer.t_ANY_error` (only the
INITIAL state overrides it with the emitting `SheppLexer.t_error`), so on
the input hash-dollar-parenthesis lexing aborts with a fatal lexing error
on the parenthesis and produces no token at all. -/
theorem C7_counterexample :
    SheppLexer.lex ['#', '$', '('] [.initial] false = ([], some '(')
    ∧ SheppLexer.lex ['#', '$', '('] [.initial] false
        ≠ ([⟨.lit '(', ['(']⟩], none) := by
  have h : SheppLexer.lex ['#', '$', '('] [.initial] false = ([], some '(') := by
    simp [SheppLexer.lex.eq_def, isSpace, isWordC, isWordChar, squote]
  exact ⟨h, by rw [h]; decide⟩

/-- Claim C7, amended: only in the default (INITIAL) mode does an
unmatched character come out as a one-character token whose kind is that
character, with the lexer advancing past exactly one character; in the
directive (pp) and escape modes an unmatched character instead raises a
fatal lexing error and the lexer emits nothing further. -/
theorem C7_error_fallback_amended :
    (∀ c cs st esc, isSpace c = false → isWordC c = false → c ≠ '\\' →
      c ≠ '#' →
      SheppLexer.lex (c :: cs) (.initial :: st) esc
        = (⟨.lit c, [c]⟩ :: (SheppLexer.lex cs (.initial :: st) esc).1,
           (SheppLexer.lex cs (.initial :: st) esc).2))
    ∧ (∀ c cs st esc, c ≠ '\\' → isSpace c = false → isWordChar c = false →
        c ≠ '"' →
        SheppLexer.lex (c :: cs) (.pp :: st) esc = ([], some c))
    ∧ (∀ c cs st esc, c ≠ '\\' → c ≠ '"' → c ≠ squote → c ≠ '\n' →
        SheppLexer.lex (c :: cs) (.escaped :: st) esc = ([], some c)) := by
  refine ⟨?_, ?_, ?_⟩
  · intro c cs st esc h1 h2 h3 h4
    rw [SheppLexer.lex.eq_def]
    simp [h1, h2, h3, h4]
  · intro c cs st esc h1 h2 h3 h4
    rw [SheppLexer.lex.eq_def]
    simp [h1, h2, h3, h4]
  · intro c cs st esc h1 h2 h3 h4
    rw [SheppLexer.lex.eq_def]
    simp [h1, h2, h3, h4]

/-- Claim C7, witness for the amended statement. -/
theorem C7_error_fallback_amended_witness :
    SheppLexer.lex ['(', 'a'] [.initial] false
      = (⟨.lit '(', ['(']⟩ :: (SheppLexer.lex ['a'] [.initial] false).1,
         (SheppLexer.lex ['a'] [.initial] false).2)
    ∧ SheppLexer.lex ['(', 'a'] [.pp, .initial] false = ([], some '(')
    ∧ SheppLexer.lex ['x', 'a'] [.escaped, .initial] false = ([], some 'x') :=
  ⟨C7_error_fallback_amended.1 '(' ['a'] [] false (by decide) (by decide)
      (by decide) (by decide),
   C7_error_fallback_amended.2.1 '(' ['a'] [.initial] false (by decide)
      (by decide) (by decide) (by decide),
   C7_error_fallback_amended.2.2 'x' ['a'] [.initial] false (by decide)
      (by decide) (by decide) (by decide)⟩

theorem tokText_nil : tokText [] = [] := rfl

theorem tokText_cons (t : Token) (ts : List Token) :
    tokText (t :: ts) = t.value ++ tokText ts := by
  simp [tokText]

theorem lex_nil (st : List Mode) (esc : Bool) :
    SheppLexer.lex [] st esc = ([], none) := by
  rw [SheppLexer.lex.eq_def]

theorem lex_init_space (c : Char) (cs2 : List Char) (st : List Mode)
    (esc : Bool) (h : isSpace c = true) :
    SheppLexer.lex (c :: cs2) (.initial :: st) esc
      = (⟨.WS, c :: cs2.takeWhile isSpace⟩
           :: (SheppLexer.lex (cs2.dropWhile isSpace) (.initial :: st) esc).1,
         (SheppLexer.lex (cs2.dropWhile isSpace) (.initial :: st) esc).2) := by
  rw [SheppLexer.lex.eq_def]
  simp [h]

theorem lex_init_word (c : Char) (cs2 : List Char) (st : List Mode)
    (esc : Bool) (h1 : isSpace c = false) (h2 : c ≠ '\\') (h3 : c ≠ '#')
    (h4 : isWordC c = true) :
    SheppLexer.lex (c :: cs2) (.initial :: st) esc
      = (⟨.WORD, c :: cs2.takeWhile isWordC⟩
           :: (SheppLexer.lex (cs2.dropWhile isWordC) (.initial :: st) esc).1,
         (SheppLexer.lex (cs2.dropWhile isWordC) (.initial :: st) esc).2) := by
  rw [SheppLexer.lex.eq_def]
  simp [h1, h2, h3, h4]

theorem lex_init_other (c : Char) (cs2 : List Char) (st : List Mode)
    (esc : Bool) (h1 : isSpace c = false) (h2 : c ≠ '\\') (h3 : c ≠ '#')
    (h4 : isWordC c = false) :
    SheppLexer.lex (c :: cs2) (.initial :: st) esc
      = (⟨.lit c, [c]⟩ :: (SheppLexer.lex cs2 (.initial :: st) esc).1,
         (SheppLexer.lex cs2 (.initial :: st) esc).2) := by
  rw [SheppLexer.lex.eq_def]
  simp [h1, h2, h3, h4]

theorem dropWhile_head_false (p : Char → Bool) (l : List Char) :
    ∀ c cs, l.dropWhile p = c :: cs → p c = false := by
  induction l with
  | nil => intro c cs h; simp [List.dropWhile] at h
  | cons a l ih =>
    intro c cs h
    by_cases hp : p a
    · rw [List.dropWhile_cons_of_pos hp] at h
      exact ih c cs h
    · rw [List.dropWhile_cons_of_neg hp] at h
      injection h with h1 h2
      subst h1
      simpa using hp

theorem takeWhile_mem (p : Char → Bool) (l : List Char) :
    ∀ c ∈ l.takeWhile p, p c = true := by
  intro c hc
  have h := List.all_takeWhile (p := p) (l := l)
  exact List.all_eq_true.mp h c hc

theorem lexInit_clean :
    ∀ n cs, cs.length ≤ n → (∀ c ∈ cs, c ≠ '\\') → (∀ c ∈ cs, c ≠ '#') →
      (SheppLexer.lex cs [.initial] false).2 = none
      ∧ tokText (SheppLexer.lex cs [.initial] false).1 = cs
      ∧ initToks (SheppLexer.lex cs [.initial] false).1
      ∧ (∀ t ts2, (SheppLexer.lex cs [.initial] false).1 = t :: ts2 →
          t.value.head? = cs.head?) := by
  intro n
  induction n with
  | zero =>
    intro cs hlen _ _
    have hcs : cs = [] := List.eq_nil_of_length_eq_zero (Nat.le_zero.mp hlen)
    subst hcs
    rw [lex_nil]
    exact ⟨rfl, rfl, trivial, fun t ts2 h => by simp at h⟩
  | succ n ih =>
    intro cs hlen hbs hhash
    cases cs with
    | nil =>
      rw [lex_nil]
      exact ⟨rfl, rfl, trivial, fun t ts2 h => by simp at h⟩
    | cons c cs2 =>
      have hcb : c ≠ '\\' := hbs c (by simp)
      have hch : c ≠ '#' := hhash c (by simp)
      by_cases hsp : isSpace c = true
      · -- whitespace run
        rw [lex_init_space c cs2 [] false hsp]
        have hsub : (cs2.dropWhile isSpace).Sublist cs2 :=
          List.dropWhile_sublist _
        have hlr : (cs2.dropWhile isSpace).length ≤ n := by
          have h1 := hsub.length_le
          simp only [List.length_cons] at hlen
          omega
        obtain ⟨ih1, ih2, ih3, ih4⟩ := ih (cs2.dropWhile isSpace) hlr
          (fun x hx => hbs x (List.mem_cons_of_mem c (hsub.mem hx)))
          (fun x hx => hhash x (List.mem_cons_of_mem c (hsub.mem hx)))
        refine ⟨ih1, ?_, ?_, ?_⟩
        · rw [tokText_cons, ih2]
          simp [List.takeWhile_append_dropWhile]
        · refine ⟨⟨by simp, ?_⟩, fun _ => ?_, ih3⟩
          · intro x hx
            rcases List.mem_cons.mp hx with h | h
            · subst h; exact hsp
            · exact takeWhile_mem isSpace cs2 x h
          · cases hT : (SheppLexer.lex (cs2.dropWhile isSpace)
                [.initial] false).1 with
            | nil => trivial
            | cons t2 ts2 =>
              show t2.kind ≠ .WS
              intro hws
              have hg : goodTok t2 := by
                rw [hT] at ih3
                exact ih3.1
              have hh := ih4 t2 ts2 hT
              obtain ⟨k2, v2⟩ := t2
              simp only at hws
              subst hws
              obtain ⟨hne, hall⟩ := hg
              cases hv : v2 with
              | nil => exact hne hv
              | cons c0 v0 =>
                have hc0 : isSpace c0 = true := by
                  exact hall c0 (by simp [hv])
                rw [hv] at hh
                simp only [List.head?_cons] at hh
                cases hr : cs2.dropWhile isSpace with
                | nil => rw [hr] at hh; simp at hh
                | cons r0 rs =>
                  rw [hr] at hh
                  simp only [List.head?_cons, Option.some.injEq] at hh
                  subst hh
                  have := dropWhile_head_false isSpace cs2 c0 rs hr
                  rw [hc0] at this
                  exact Bool.true_eq_false.mp this
        · intro t ts2 h
          injection h with h1 h2
          subst h1
          simp
      · have hspf : isSpace c = false := by simpa using hsp
        by_cases hwc : isWordC c = true
        · -- word run
          rw [lex_init_word c cs2 [] false hspf hcb hch hwc]
          have hsub : (cs2.dropWhile isWordC).Sublist cs2 :=
            List.dropWhile_sublist _
          have hlr : (cs2.dropWhile isWordC).length ≤ n := by
            have h1 := hsub.length_le
            simp only [List.length_cons] at hlen
            omega
          obtain ⟨ih1, ih2, ih3, ih4⟩ := ih (cs2.dropWhile isWordC) hlr
            (fun x hx => hbs x (List.mem_cons_of_mem c (hsub.mem hx)))
            (fun x hx => hhash x (List.mem_cons_of_mem c (hsub.mem hx)))
          refine ⟨ih1, ?_, ?_, ?_⟩
          · rw [tokText_cons, ih2]
            simp [List.takeWhile_append_dropWhile]
          · refine ⟨⟨by simp, ?_⟩, fun hk => ?_, ih3⟩
            · intro x hx
              rcases List.mem_cons.mp hx with h | h
              · subst h; exact hwc
              · exact takeWhile_mem isWordC cs2 x h
            · exact absurd hk (by simp)
          · intro t ts2 h
            injection h with h1 h2
            subst h1
            simp
        · -- fallback single-character token
          have hwcf : isWordC c = false := by simpa using hwc
          rw [lex_init_other c cs2 [] false hspf hcb hch hwcf]
          have hlr : cs2.length ≤ n := by
            simp only [List.length_cons] at hlen
            omega
          obtain ⟨ih1, ih2, ih3, ih4⟩ := ih cs2 hlr
            (fun x hx => hbs x (List.mem_cons_of_mem c hx))
            (fun x hx => hhash x (List.mem_cons_of_mem c hx))
          refine ⟨ih1, ?_, ?_, ?_⟩
          · rw [tokText_cons, ih2]
            simp
          · exact ⟨⟨rfl, hspf, hwcf⟩, fun hk => absurd hk (by simp), ih3⟩
          · intro t ts2 h
            injection h with h1 h2
            subst h1
            simp

theorem initToks_mem : ∀ ts, initToks ts → ∀ t ∈ ts, goodTok t := by
  intro ts
  induction ts with
  | nil => intro _ t ht; simp at ht
  | cons t2 ts2 ih =>
    intro h t ht
    rcases List.mem_cons.mp ht with h1 | h1
    · subst h1; exact h.1
    · exact ih h.2.2 t h1

theorem joinLines_id (ts : List Token)
    (h : ∀ t ∈ ts, t.kind ≠ .CHAR) : joinLines ts = ts := by
  induction ts with
  | nil => rfl
  | cons t ts2 ih =>
    have ht := h t (by simp)
    simp only [joinLines, List.filter_cons]
    have hcond : (!(t.kind = Kind.CHAR ∧ t.value = ['\n'] : Bool)) = true := by
      simp [ht]
    rw [hcond]
    simp only [if_true]
    simp only [joinLines] at ih
    rw [ih (fun x hx => h x (by simp [hx]))]

theorem interp_id (sp : List (List Char)) (fs : Files) (fuel : Nat) :
    ∀ ts M, (∀ t ∈ ts, t.kind ≠ .DEFINE ∧ t.kind ≠ .INCLUDE
        ∧ substWord M t = t) →
      interp sp fs fuel ts M = (ts, .ok M) := by
  intro ts
  induction ts with
  | nil => intro M _; exact interp_nil sp fs fuel M
  | cons t ts2 ih =>
    intro M h
    obtain ⟨h1, h2, h3⟩ := h t (by simp)
    rw [interp_step sp fs fuel t ts2 M h1 h2, h3,
      ih M (fun x hx => h x (by simp [hx]))]

theorem removeGo_id : ∀ ts (b : Bool), initToks ts →
    (∀ t ∈ ts, t.kind = .WS → '\n' ∈ t.value → t.value = ['\n']) →
    (b = true → headNotWS ts) →
    removeEmptyLinesGo b ts = ts := by
  intro ts
  induction ts with
  | nil => intro b _ _ _; rfl
  | cons t ts2 ih =>
    intro b hinit hvals hb
    obtain ⟨hg, hws, hrest⟩ := hinit
    by_cases hcond : t.kind = Kind.WS ∧ '\n' ∈ t.value
    · have hv : t.value = ['\n'] := hvals t (by simp) hcond.1 hcond.2
      have hbf : b = false := by
        cases b with
        | false => rfl
        | true => exact absurd hcond.1 (hb rfl)
      subst hbf
      rw [removeEmptyLinesGo, if_pos hcond]
      have ht : { t with value := ['\n'] } = t := by
        obtain ⟨k, v⟩ := t
        simp only at hv
        simp [hv]
      simp only [Bool.false_eq_true, if_false]
      rw [ht, ih true hrest (fun x hx => hvals x (by simp [hx]))
        (fun _ => hws hcond.1)]
    · rw [removeEmptyLinesGo, if_neg hcond]
      rw [ih false hrest (fun x hx => hvals x (by simp [hx]))
        (fun hcontra => by simp at hcontra)]

/-- Claim C1, counterexample: the input consisting of two newlines
contains no directive introducer (no hash at all) and no backslash, yet
the preprocessor output is a single newline, not the input: the blank-line
collapser normalizes every newline-carrying whitespace run, so pass-through
identity fails as stated. -/
theorem C1_counterexample :
    (∀ c ∈ ['\n', '\n'], c ≠ '\\')
    ∧ (∀ c ∈ ['\n', '\n'], c ≠ '#')
    ∧ (preprocess (sheppPath []) [] 1 ['\n', '\n']
        (initialTable "Jan 01 25".data "00:00:00".data)).1.flatten
        ≠ ['\n', '\n'] := by
  refine ⟨by decide, by decide, ?_⟩
  have hlex : SheppLexer.lex ['\n', '\n'] [.initial] false
      = ([⟨.WS, ['\n', '\n']⟩], none) := by
    simp [SheppLexer.lex.eq_def, isSpace, isWordC, isWordChar]
  have hjl : joinLines [(⟨.WS, ['\n', '\n']⟩ : Token)]
      = [⟨.WS, ['\n', '\n']⟩] := by decide
  have hint : interp (sheppPath []) [] 1 [⟨.WS, ['\n', '\n']⟩]
      (initialTable "Jan 01 25".data "00:00:00".data)
      = ([⟨.WS, ['\n', '\n']⟩],
         .ok (initialTable "Jan 01 25".data "00:00:00".data)) := by
    rw [interp_step _ _ 1 ⟨.WS, ['\n', '\n']⟩ [] _ (by decide) (by decide),
      interp_nil]
    simp [substWord]
  have hlp : lexPreprocess (sheppPath []) [] 1 ['\n', '\n']
      (initialTable "Jan 01 25".data "00:00:00".data)
      = ([⟨.WS, ['\n', '\n']⟩],
         .ok (initialTable "Jan 01 25".data "00:00:00".data)) := by
    simp only [lexPreprocess, hlex, hjl, hint]
  simp [preprocess, hlp, removeEmptyLines, removeEmptyLinesGo]

/-- Claim C1, amended: pass-through identity holds for scripts free of
backslashes and free of hash characters (ruling out both directives and
comments), provided additionally that every whitespace token containing a
newline is exactly one newline (otherwise the blank-line collapser
rewrites it) and that no word of the script is a currently defined macro
name (otherwise substitution rewrites it): then the concatenated output
chunks equal the input exactly and the macro table is unchanged. -/
theorem C1_pass_through_amended :
    ∀ sp fs fuel M script,
      (∀ c ∈ script, c ≠ '\\') → (∀ c ∈ script, c ≠ '#') →
      (∀ t ∈ (SheppLexer.lex script [.initial] false).1,
         t.kind = .WS → '\n' ∈ t.value → t.value = ['\n']) →
      (∀ t ∈ (SheppLexer.lex script [.initial] false).1,
         t.kind = .WORD → lookupM M t.value = none) →
      (preprocess sp fs fuel script M).1.flatten = script
      ∧ (preprocess sp fs fuel script M).2 = .ok M := by
  intro sp fs fuel M script hbs hhash hws hword
  obtain ⟨he, htext, hinit, hhead⟩ :=
    lexInit_clean script.length script (le_refl _) hbs hhash
  have hkinds : ∀ t ∈ (SheppLexer.lex script [.initial] false).1,
      t.kind ≠ .CHAR := by
    intro t ht hc
    have hg := initToks_mem _ hinit t ht
    obtain ⟨k, v⟩ := t
    simp only at hc
    subst hc
    exact hg
  have hjl : joinLines (SheppLexer.lex script [.initial] false).1
      = (SheppLexer.lex script [.initial] false).1 :=
    joinLines_id _ hkinds
  have hsub : ∀ t ∈ (SheppLexer.lex script [.initial] false).1,
      t.kind ≠ .DEFINE ∧ t.kind ≠ .INCLUDE ∧ substWord M t = t := by
    intro t ht
    have hg := initToks_mem _ hinit t ht
    refine ⟨?_, ?_, ?_⟩
    · intro hc
      obtain ⟨k, v⟩ := t
      simp only at hc
      subst hc
      exact hg
    · intro hc
      obtain ⟨k, v⟩ := t
      simp only at hc
      subst hc
      exact hg
    · by_cases hw : t.kind = .WORD
      · have hl := hword t ht hw
        simp [substWord, hw, hl]
      · simp [substWord, hw]
  have hint := interp_id sp fs fuel (SheppLexer.lex script [.initial] false).1
    M hsub
  have hlp : lexPreprocess sp fs fuel script M
      = ((SheppLexer.lex script [.initial] false).1, .ok M) := by
    simp only [lexPreprocess, hjl, hint, he]
  have hrem : removeEmptyLines (SheppLexer.lex script [.initial] false).1
      = (SheppLexer.lex script [.initial] false).1 :=
    removeGo_id _ false hinit hws (fun h => by simp at h)
  constructor
  · simp only [preprocess, hlp, hrem]
    simpa [tokText] using htext
  · simp [preprocess, hlp]

/-- Claim C1, witness for the amended statement. -/
theorem C1_pass_through_amended_witness :
    (preprocess (sheppPath []) [] 1 "a b\nc".data
        (initialTable "Jan 01 25".data "00:00:00".data)).1.flatten
      = "a b\nc".data
    ∧ (preprocess (sheppPath []) [] 1 "a b\nc".data
        (initialTable "Jan 01 25".data "00:00:00".data)).2
      = .ok (initialTable "Jan 01 25".data "00:00:00".data) := by
  have hlex : SheppLexer.lex "a b\nc".data [.initial] false
      = ([⟨.WORD, ['a']⟩, ⟨.WS, [' ']⟩, ⟨.WORD, ['b']⟩, ⟨.WS, ['\n']⟩,
          ⟨.WORD, ['c']⟩], none) := by
    simp [SheppLexer.lex.eq_def, isSpace, isWordC, isWordChar]
  exact C1_pass_through_amended (sheppPath []) [] 1
    (initialTable "Jan 01 25".data "00:00:00".data) "a b\nc".data
    (by decide) (by decide)
    (by rw [hlex]; decide)
    (by rw [hlex]; decide)
